import Mathlib

/-!
Verification of the ABI-contract subsystem (`boa/abi/contract.py`):
binding an ABI description to a deployed contract, marshalling call
results, and reconstructing stack traces on failure.

The Python source is shallowly embedded: pure helpers become Lean
functions, the attribute table built by `setattr` in a loop becomes an
association list with last-write-wins lookup, Python `dict`s become
association lists with insert-or-overwrite semantics, and fallible code
returns `Option`/`Except`.  Collaborators of the file that live
elsewhere in the repository (`ABIFunction`, `Address`, `Env`,
`_handle_child_trace`) are modelled from the spec, as marked on each
definition.
-/

set_option autoImplicit false

/-- Modelled from the spec: the typed function descriptor produced by
`boa.abi.function.ABIFunction` (not part of the sources under
verification).  Per §3 of the design it carries a name, a 4-byte method
id and a human-readable full signature. -/
structure ABIFunction where
  name : String
  method_id : List Nat
  full_signature : String
deriving DecidableEq

/-- Modelled from the spec: `boa.environment.Address` (not part of the
sources under verification), a normalized chain address.  The canonical
form is modelled as the 160-bit value. -/
structure Address where
  val : Nat
deriving DecidableEq

/-- Modelled from the spec: the `Address(...)` normalizing constructor.
Normalization is idempotent (§3 invariants). -/
def Address.norm (n : Nat) : Address :=
  ⟨n % 2 ^ 160⟩

/-- Big-endian, zero-padded hexadecimal rendering of `n` with `k` digits
(lowercase, like Python's `bytes.hex`). -/
def natHexChars : Nat → Nat → List Char
  | _, 0 => []
  | n, k + 1 => natHexChars (n / 16) k ++ [Nat.digitChar (n % 16)]

/-- One byte as two lowercase hex digits. -/
def byteHex (b : Nat) : String :=
  String.mk (natHexChars b 2)

/-- Python `bytes.hex()`: each byte as two lowercase hex digits. -/
def bytesHex (bs : List Nat) : String :=
  String.join (bs.map byteHex)

/-- Modelled from the spec: the display form of an `Address` (the repr
of `boa.environment.Address` is not part of the sources); 40 hex
digits after `0x`. -/
def addressStr (a : Address) : String :=
  "0x" ++ String.mk (natHexChars a.val 40)

/-- A computation result as consumed by `contract.py` (external
interface, §6): error flag, output bytes, call input bytes (`msg.data`),
target address of the message, and the child sub-computations. -/
inductive ComputationResult where
  | mk (isError : Bool) (output : List Nat) (msgData : List Nat)
       (msgTo : Nat) (children : List ComputationResult)

def ComputationResult.isError : ComputationResult → Bool
  | .mk e _ _ _ _ => e

def ComputationResult.output : ComputationResult → List Nat
  | .mk _ o _ _ _ => o

def ComputationResult.msgData : ComputationResult → List Nat
  | .mk _ _ d _ _ => d

def ComputationResult.msgTo : ComputationResult → Nat
  | .mk _ _ _ t _ => t

def ComputationResult.children : ComputationResult → List ComputationResult
  | .mk _ _ _ _ cs => cs

/-- The data owned by a bound `ABIContract`: display name, descriptor
list, bound address and optional filename (`ABIContract.__init__`). -/
structure ContractData where
  name : String
  functions : List ABIFunction
  address : Address
  filename : Option String
deriving DecidableEq

/-- Embedding of `ABIContract.__repr__`: the string `<{name} interface at {address}>` plus a
file part when `self.filename` is truthy (Python treats both `None` and
the empty string as falsy). -/
def contractRepr (c : ContractData) : String :=
  let fileStr :=
    match c.filename with
    | some f => if f = "" then "" else " (file " ++ f ++ ")"
    | none => ""
  "<" ++ c.name ++ " interface at " ++ addressStr c.address ++ ">" ++ fileStr

/-- Python-`dict` insertion: overwrite the value in place when the key
is present, otherwise append the binding. -/
def dictInsert (d : List (List Nat × ABIFunction)) (k : List Nat)
    (v : ABIFunction) : List (List Nat × ABIFunction) :=
  if d.any (fun p => p.1 == k) then
    d.map (fun p => if p.1 == k then (k, v) else p)
  else
    d ++ [(k, v)]

/-- Embedding of `ABIContract.method_id_map`: the dict comprehension
`{function.method_id: function for function in self._functions}`. -/
def methodIdMap (fs : List ABIFunction) : List (List Nat × ABIFunction) :=
  fs.foldl (fun d f => dictInsert d f.method_id f) []

/-- Keys of an association-list dict, in insertion order. -/
def dictKeys (d : List (List Nat × ABIFunction)) : List (List Nat) :=
  d.map (·.1)

/-- Dict lookup: `d[k]` for the association-list model. -/
def lookupMid (d : List (List Nat × ABIFunction)) (k : List Nat) :
    Option ABIFunction :=
  (d.find? (fun p => p.1 == k)).map (·.2)

/-- One step of first-occurrence accumulation: keep the accumulator
when the element was already seen, otherwise append it. -/
def occStep {α : Type} [DecidableEq α] (acc : List α) (n : α) : List α :=
  if n ∈ acc then acc else acc ++ [n]

/-- The distinct elements of a list, first occurrence order (the key
order of Python's `dict`/`Counter`). -/
def firstOcc {α : Type} [DecidableEq α] (l : List α) : List α :=
  l.foldl occStep []

/-- State for the `cached_property` behavior of `method_id_map`: the contract
instance stores the map on first access and never invalidates it. -/
structure CachedContract where
  functions : List ABIFunction
  midCache : Option (List (List Nat × ABIFunction))
deriving DecidableEq

/-- Reading a `cached_property`: return the stored value if present,
otherwise compute it once and store it. -/
def readMethodIdMap (s : CachedContract) :
    List (List Nat × ABIFunction) × CachedContract :=
  match s.midCache with
  | some m => (m, s)
  | none => (methodIdMap s.functions, ⟨s.functions, some (methodIdMap s.functions)⟩)

/-- The line of `ABIContract.stack_trace` when the calldata method id is
found in `method_id_map` (source line 99). -/
def unknownLocationLine (c : ContractData) (fn : ABIFunction) : String :=
  "  (unknown location in " ++ contractRepr c ++ "." ++ fn.full_signature ++ ")"

/-- The fallback line of `ABIContract.stack_trace` when the calldata
method id is not in `method_id_map` (source line 102). -/
def unknownMethodIdLine (c : ContractData) (mid : List Nat) : String :=
  "  (unknown method id " ++ contractRepr c ++ ".0x" ++ bytesHex mid ++ ")"

/-- The single line contributed by `ABIContract.stack_trace` for its own
frame: take the first 4 bytes of `msg.data` as the method id and
resolve it in `method_id_map`. -/
def traceLine (c : ContractData) (msgData : List Nat) : String :=
  let mid := msgData.take 4
  match lookupMid (methodIdMap c.functions) mid with
  | some fn => unknownLocationLine c fn
  | none => unknownMethodIdLine c mid

/-- The Environment's address→contract registry (modelled from the
spec: `Env.lookup_contract` resolves addresses registered by
`register_contract`). -/
def Registry : Type :=
  List (Nat × ContractData)

/-- Modelled from the spec: `Env.lookup_contract(address)`, resolving a
canonical address to the registered contract, `none` when absent. -/
def lookupContract (reg : Registry) (a : Nat) : Option ContractData :=
  (List.find? (fun p => p.1 == a) reg).map (·.2)

/-- Modelled from the spec: the generic unresolved line produced when a
failing child call's target address has no registered contract
(§4.4 step 4 of the design; `_handle_child_trace` is not part of the
sources under verification). -/
def unresolvedLine (comp : ComputationResult) : String :=
  "  (unknown contract 0x" ++ String.mk (natHexChars comp.msgTo 40) ++ ")"

mutual

/-- Embedding of `ABIContract.stack_trace`: produce this contract's own line and
append it after the trace of the failing child (the child part is
modelled from the spec, see `childTracePart`), so the innermost failure
comes first. -/
def contractStackTrace (reg : Registry) (c : ContractData) :
    ComputationResult → List String
  | .mk _ _ d _ children =>
    childTracePart reg children ++ [traceLine c d]

/-- Modelled from the spec: the child-walk of `_handle_child_trace`
(not part of the sources under verification).  Per §4.4 step 4, walk
the computation's child sub-calls to the failing child, resolve its
target address through the Environment registry and recurse into that
contract's stack trace, or degrade to a generic unresolved line; a
computation with no failing children contributes nothing. -/
def childTracePart (reg : Registry) : List ComputationResult → List String
  | [] => []
  | ch :: rest =>
    if ch.isError then
      match lookupContract reg ch.msgTo with
      | some cc => contractStackTrace reg cc ch
      | none => [unresolvedLine ch]
    else
      childTracePart reg rest

end

/-- The structured error raised by `_EvmContract.handle_error`: a
`BoaError` carrying the reconstructed stack trace as payload (the
subsequent `strip_internal_frames` re-raise only trims traceback
frames, a presentation concern that leaves the payload unchanged), or a
Python `TypeError` escaping from `_decode_addresses`. -/
inductive MarshalError where
  | boaError (trace : List String)
  | typeError
deriving DecidableEq

/-- A decoded Python value as handled by `_decode_addresses`: an opaque
raw scalar, an `Address` wrapper, or a sequence. -/
inductive PyValue where
  | raw (n : Nat)
  | addr (v : PyValue)
  | list (vs : List PyValue)

/-- Embedding of `_decode_addresses`: wrap a value tagged exactly `"address"` in an
`Address`, wrap each element of a value tagged exactly `"address[]"`,
pass every other tag through unchanged.  Iterating a non-sequence in
the `"address[]"` branch fails (Python raises `TypeError`). -/
def decode_addresses (abi_type : String) (decoded : PyValue) : Option PyValue :=
  if abi_type = "address" then
    some (.addr decoded)
  else if abi_type = "address[]" then
    match decoded with
    | .list vs => some (.list (vs.map .addr))
    | _ => none
  else
    some decoded

/-- The list comprehension of `marshal_to_python`: post-process each
`(type, value)` pair left to right, propagating the first failure. -/
def decodeAll : List (String × PyValue) → Option (List PyValue)
  | [] => some []
  | (t, v) :: rest =>
    match decode_addresses t v, decodeAll rest with
    | some w, some ws => some (w :: ws)
    | _, _ => none

/-- Embedding of `ABIContract.marshal_to_python`: on error, raise a `BoaError`
carrying the reconstructed stack trace; otherwise decode the output
against the type tags (the external `eth_abi.decode` primitive is a
parameter `dec`) and post-process the zipped pairs. -/
def marshal_to_python (dec : List String → List Nat → List PyValue)
    (reg : Registry) (c : ContractData) (comp : ComputationResult)
    (abi_type : List String) : Except MarshalError (List PyValue) :=
  if comp.isError then
    .error (.boaError (contractStackTrace reg c comp))
  else
    match decodeAll (abi_type.zip (dec abi_type comp.output)) with
    | some vs => .ok vs
    | none => .error .typeError

/-- What `setattr` exposes under a function name: a single descriptor
(`functions[0]`) or an `ABIOverload` of the whole group. -/
inductive FnEntry where
  | single (f : ABIFunction)
  | overload (fs : List ABIFunction)
deriving DecidableEq

/-- Embedding of `itertools.groupby(self._functions, key=attrgetter("name"))`:
maximal runs of consecutive descriptors sharing a name. -/
def groupRuns : List ABIFunction → List (List ABIFunction)
  | [] => []
  | f :: fs =>
    match groupRuns fs with
    | [] => [[f]]
    | g :: gs =>
      if (g.headD f).name = f.name then (f :: g) :: gs else [f] :: g :: gs

/-- The shared name of a run of descriptors (runs are never empty). -/
def groupName (g : List ABIFunction) : String :=
  match g with
  | [] => ""
  | f :: _ => f.name

/-- The body of the `ABIContract.__init__` loop: a single-element group
is exposed directly, a larger group as an `ABIOverload`. -/
def mkEntry (g : List ABIFunction) : FnEntry :=
  match g with
  | [f] => .single f
  | gs => .overload gs

/-- The sequence of `setattr(self, name, fn)` calls performed by
`ABIContract.__init__`, in loop order. -/
def attrTable (fs : List ABIFunction) : List (String × FnEntry) :=
  (groupRuns fs).map (fun g => (groupName g, mkEntry g))

/-- The attribute finally exposed under `n` after the `__init__` loop:
each `setattr` overwrites the previous one, so the last group with a
given name wins. -/
def getAttr (fs : List ABIFunction) (n : String) : Option FnEntry :=
  (List.find? (fun p => p.1 == n) (attrTable fs).reverse).map (·.2)

/-- Embedding of `ABIContractFactory`: name, descriptor list and optional filename,
not yet bound to an address. -/
structure ABIContractFactory where
  name : String
  functions : List ABIFunction
  filename : Option String
deriving DecidableEq

/-- Embedding of `os.path.basename` (POSIX): the part after the last `/`. -/
def basename (p : String) : String :=
  String.mk (p.data.foldl (fun acc ch => if ch = '/' then [] else acc ++ [ch]) [])

/-- A raw ABI entry as consumed by `from_abi_dict`: the `"type"` value
(absent keys read as `None` via `item.get`), plus the fields the
external `ABIFunction` constructor extracts from a function item
(modelled from the spec: name, method id, full signature). -/
structure AbiItem where
  itemType : Option String
  fname : String
  mid : List Nat
  sig : String
deriving DecidableEq

/-- Modelled from the spec: `ABIFunction(item, contract_name)` turning a
raw function item into a typed descriptor (the constructor lives in
`boa.abi.function`, outside the sources under verification; the
contract name argument does not enter the descriptor fields). -/
def mkABIFunction (item : AbiItem) : ABIFunction :=
  ⟨item.fname, item.mid, item.sig⟩

/-- The names for which `from_abi_dict` warns: those carried by more
than one descriptor (`Counter(...)` entries with `count > 1`), in
`Counter` key order. -/
def collidingNames (fs : List ABIFunction) : List String :=
  (firstOcc (fs.map (·.name))).filter
    (fun n => 2 ≤ (fs.map (·.name)).count n)

/-- The `warnings.warn` message emitted for an overloaded name. -/
def overloadWarning (cname n : String) : String :=
  cname ++ " overloads " ++ n ++ "! overloaded methods " ++
    "might not work correctly at this time"

/-- Embedding of `ABIContractFactory.from_abi_dict`: default the name, keep the
function-kind items, build descriptors, warn once per colliding name,
and return a factory named by the base component of `name` with the
full `name` as filename. -/
def from_abi_dict (abi : List AbiItem) (nameOpt : Option String) :
    ABIContractFactory × List String :=
  let name := nameOpt.getD "<anonymous contract>"
  let functions :=
    (abi.filter (fun i => i.itemType == some "function")).map mkABIFunction
  let warns := (collidingNames functions).map (overloadWarning name)
  (⟨basename name, functions, some name⟩, warns)

/-- Modelled from the spec: the slice of the `Env` that `contract.py`
touches — `vm.state.get_code` keyed by canonical address, and the
address→contract registry behind `register_contract` /
`lookup_contract`. -/
structure Env where
  codeAt : Nat → List Nat
  registry : Registry

/-- The `ValueError` message raised by `ABIContractFactory.at` when the
address hosts no bytecode. -/
def missingBytecode (c : ContractData) : String :=
  "Requested " ++ contractRepr c ++ " but there is no bytecode at that address!"

/-- Embedding of `ABIContractFactory.at`: normalize the address, build the contract,
fetch the bytecode at the canonical address, raise when it is empty,
otherwise register the contract and return it.  The environment comes
back unchanged on the error path. -/
def factory_at (f : ABIContractFactory) (env : Env) (rawAddr : Nat) :
    Except String ContractData × Env :=
  let addr := Address.norm rawAddr
  let ret : ContractData :=
    ⟨f.name, f.functions, addr, f.filename⟩
  let bytecode := env.codeAt addr.val
  if bytecode = [] then
    (.error (missingBytecode ret), env)
  else
    (.ok ret, ⟨env.codeAt, (addr.val, ret) :: env.registry⟩)

/-- Embedding of `ABIContract.deployer`: a fresh factory carrying the contract's
name and descriptors (the filename argument is not forwarded). -/
def deployer (c : ContractData) : ABIContractFactory :=
  ⟨c.name, c.functions, none⟩

/-! ### Concrete fixtures used by witnesses and counterexamples -/

/-- A descriptor named `foo`, selector `01020304`. -/
def fnW : ABIFunction := ⟨"foo", [1, 2, 3, 4], "foo()"⟩

/-- A descriptor named `bar`, selector `09090909`. -/
def fnBarW : ABIFunction := ⟨"bar", [9, 9, 9, 9], "bar()"⟩

/-- A second descriptor named `foo` (an overload), selector `05060708`. -/
def fnFoo2W : ABIFunction := ⟨"foo", [5, 6, 7, 8], "foo(uint256)"⟩

/-- Two descriptors with distinct names but the same method id. -/
def fnDupX : ABIFunction := ⟨"x", [0, 0, 0, 1], "x()"⟩

/-- See `fnDupX`. -/
def fnDupY : ABIFunction := ⟨"y", [0, 0, 0, 1], "y()"⟩

/-- A contract over `fnW`, bound at address 3. -/
def cW : ContractData := ⟨"C", [fnW], ⟨3⟩, none⟩

/-- A contract bound at address 5 with a filename. -/
def cBoundW : ContractData := ⟨"C", [fnW], ⟨5⟩, some "c.json"⟩

/-- A failing computation calling selector `01020304`, no children. -/
def compErrW : ComputationResult := .mk true [] [1, 2, 3, 4] 5 []

/-- A successful computation with empty calldata and output `[0]`. -/
def compOkW : ComputationResult := .mk false [0] [] 0 []

/-- A decode primitive that ignores its input. -/
def decW : List String → List Nat → List PyValue := fun _ _ => []

/-- A decode primitive returning an address, an address array and a raw
word, matching `tagsW`. -/
def decW3 : List String → List Nat → List PyValue :=
  fun _ _ => [.raw 7, .list [.raw 1], .raw 9]

/-- The output type tags matching `decW3`. -/
def tagsW : List String := ["address", "address[]", "uint256"]

/-- An environment with no code anywhere and an empty registry. -/
def envEmptyW : Env := ⟨fun _ => [], []⟩

/-- An environment with one byte of code at every address. -/
def envCodeW : Env := ⟨fun _ => [96], []⟩

/-- A factory over `fnW`. -/
def facW : ABIContractFactory := ⟨"C", [fnW], none⟩

/-! ### Helper lemmas -/

theorem childTracePart_skip (reg : Registry) (pre rest : List ComputationResult)
    (hpre : ∀ x ∈ pre, x.isError = false) :
    childTracePart reg (pre ++ rest) = childTracePart reg rest := by
  induction pre with
  | nil => rfl
  | cons x xs ih =>
    have hx : x.isError = false := hpre x (List.mem_cons_self x xs)
    rw [List.cons_append, childTracePart, hx]
    simp only [Bool.false_eq_true, if_false]
    exact ih (fun y hy => hpre y (List.mem_cons_of_mem x hy))

theorem childTracePart_nil_of_ok (reg : Registry) (cs : List ComputationResult)
    (h : ∀ x ∈ cs, x.isError = false) :
    childTracePart reg cs = [] := by
  have := childTracePart_skip reg cs [] h
  simpa using this

theorem firstOcc_loop_mem {α : Type} [DecidableEq α] (l : List α) :
    ∀ (acc : List α) (k : α),
      (k ∈ l.foldl occStep acc ↔ k ∈ acc ∨ k ∈ l) := by
  induction l with
  | nil => simp
  | cons x xs ih =>
    intro acc k
    rw [List.foldl_cons, occStep]
    by_cases hx : x ∈ acc
    · rw [if_pos hx, ih]
      constructor
      · rintro (h | h)
        · exact Or.inl h
        · exact Or.inr (List.mem_cons_of_mem x h)
      · rintro (h | h)
        · exact Or.inl h
        · rcases List.mem_cons.mp h with h | h
          · exact Or.inl (h ▸ hx)
          · exact Or.inr h
    · rw [if_neg hx, ih]
      simp only [List.mem_append, List.mem_singleton, List.mem_cons]
      tauto

theorem firstOcc_loop_nodup {α : Type} [DecidableEq α] (l : List α) :
    ∀ acc : List α, acc.Nodup →
      (l.foldl occStep acc).Nodup := by
  induction l with
  | nil => intro acc h; simpa using h
  | cons x xs ih =>
    intro acc h
    rw [List.foldl_cons, occStep]
    by_cases hx : x ∈ acc
    · rw [if_pos hx]; exact ih acc h
    · rw [if_neg hx]
      refine ih (acc ++ [x]) ?_
      simp [List.nodup_append, h, hx]

theorem firstOcc_loop_id {α : Type} [DecidableEq α] (l : List α) :
    ∀ acc : List α, (acc ++ l).Nodup →
      l.foldl occStep acc = acc ++ l := by
  induction l with
  | nil => intro acc _; simp
  | cons x xs ih =>
    intro acc h
    rw [List.append_cons] at h
    have hx : x ∉ acc := by
      have hsub : (acc ++ [x]).Nodup := (List.Nodup.sublist
        (List.sublist_append_left (acc ++ [x]) xs) h)
      simp [List.nodup_append] at hsub
      exact hsub.2
    rw [List.foldl_cons, occStep, if_neg hx, ih (acc ++ [x]) h]
    simp

theorem firstOcc_mem {α : Type} [DecidableEq α] (l : List α) (k : α) :
    k ∈ firstOcc l ↔ k ∈ l := by
  rw [firstOcc, firstOcc_loop_mem]
  simp

theorem firstOcc_nodup {α : Type} [DecidableEq α] (l : List α) :
    (firstOcc l).Nodup :=
  firstOcc_loop_nodup l [] List.nodup_nil

theorem firstOcc_of_nodup {α : Type} [DecidableEq α] (l : List α)
    (h : l.Nodup) : firstOcc l = l := by
  have := firstOcc_loop_id l [] (by simpa using h)
  simpa using this

theorem dictKeys_dictInsert (d : List (List Nat × ABIFunction)) (k : List Nat)
    (v : ABIFunction) :
    dictKeys (dictInsert d k v) = occStep (dictKeys d) k := by
  rw [occStep]
  by_cases h : k ∈ dictKeys d
  · obtain ⟨p0, hp0, hp0k⟩ := List.mem_map.mp h
    have hany : d.any (fun p => p.1 == k) = true :=
      List.any_eq_true.mpr ⟨p0, hp0, by simp [hp0k]⟩
    rw [if_pos h]
    unfold dictInsert dictKeys
    rw [if_pos hany, List.map_map]
    refine List.map_congr_left ?_
    intro a _
    by_cases hak : a.1 = k
    · simp [hak]
    · simp [hak]
  · have hany : d.any (fun p => p.1 == k) = false := by
      rw [List.any_eq_false]
      intro p hp
      simp only [beq_iff_eq]
      intro hpk
      exact h (List.mem_map.mpr ⟨p, hp, hpk⟩)
    rw [if_neg h]
    unfold dictInsert dictKeys
    simp only [hany, Bool.false_eq_true, if_false]
    simp

theorem dictKeys_foldl (fs : List ABIFunction) :
    ∀ d : List (List Nat × ABIFunction),
      dictKeys (fs.foldl (fun d f => dictInsert d f.method_id f) d) =
        (fs.map (·.method_id)).foldl occStep (dictKeys d) := by
  induction fs with
  | nil => intro d; simp
  | cons f fs ih =>
    intro d
    rw [List.foldl_cons, List.map_cons, List.foldl_cons, ih, dictKeys_dictInsert]

theorem dictKeys_methodIdMap (fs : List ABIFunction) :
    dictKeys (methodIdMap fs) = firstOcc (fs.map (·.method_id)) := by
  rw [methodIdMap, dictKeys_foldl, firstOcc]
  rfl

/-! ### Claim theorems -/

/-- C6 (amended): `method_id_map` has pairwise-distinct keys, its keys
are exactly the method ids occurring among the descriptors, its size
equals the number of descriptors provided the method ids are pairwise
distinct, and the `cached_property` returns the same mapping on
repeated reads (computed once, never invalidated). -/
theorem claim_C6 (fs : List ABIFunction) :
    (dictKeys (methodIdMap fs)).Nodup ∧
    (∀ k, k ∈ dictKeys (methodIdMap fs) ↔ k ∈ fs.map (·.method_id)) ∧
    ((fs.map (·.method_id)).Nodup → (methodIdMap fs).length = fs.length) ∧
    (readMethodIdMap ⟨fs, none⟩).1 = methodIdMap fs ∧
    (readMethodIdMap (readMethodIdMap ⟨fs, none⟩).2).1
      = (readMethodIdMap ⟨fs, none⟩).1 := by
  refine ⟨?_, ?_, ?_, rfl, rfl⟩
  · rw [dictKeys_methodIdMap]; exact firstOcc_nodup _
  · intro k; rw [dictKeys_methodIdMap]; exact firstOcc_mem _ k
  · intro h
    calc (methodIdMap fs).length
        = (dictKeys (methodIdMap fs)).length := by rw [dictKeys]; simp
      _ = (firstOcc (fs.map (·.method_id))).length := by rw [dictKeys_methodIdMap]
      _ = (fs.map (·.method_id)).length := by rw [firstOcc_of_nodup _ h]
      _ = fs.length := by simp

/-- C6 witness: with distinct method ids the map size equals the
descriptor count. -/
theorem claim_C6_witness :
    ([fnW, fnBarW].map (·.method_id)).Nodup ∧
    (methodIdMap [fnW, fnBarW]).length = [fnW, fnBarW].length :=
  ⟨by decide, (claim_C6 [fnW, fnBarW]).2.2.1 (by decide)⟩

/-- C6 counterexample: two descriptors sharing a method id (e.g. a
duplicated ABI entry) give a map strictly smaller than the descriptor
count, so the size clause of the claim fails as universally stated. -/
theorem claim_C6_counterexample :
    (methodIdMap [fnDupX, fnDupY]).length ≠ [fnDupX, fnDupY].length := by
  decide

/-- C7: on a failed computation, marshalling raises the structured
error carrying the reconstructed stack trace as payload, never returns
a decoded value, and never consults the ABI decode primitive (the
result is independent of it). -/
theorem claim_C7 (dec dec2 : List String → List Nat → List PyValue)
    (reg : Registry) (c : ContractData) (comp : ComputationResult)
    (abi_type : List String) (h : comp.isError = true) :
    marshal_to_python dec reg c comp abi_type
      = .error (.boaError (contractStackTrace reg c comp)) ∧
    marshal_to_python dec reg c comp abi_type
      = marshal_to_python dec2 reg c comp abi_type := by
  constructor <;> simp [marshal_to_python, h]

/-- C7 witness at a concrete failing computation. -/
theorem claim_C7_witness :
    compErrW.isError = true ∧
    marshal_to_python decW [] cW compErrW ["uint256"]
      = .error (.boaError (contractStackTrace [] cW compErrW)) :=
  ⟨rfl, (claim_C7 decW decW [] cW compErrW ["uint256"] rfl).1⟩

/-- C9: `from_abi_dict` without a name produces the literal
`<anonymous contract>` contract name; with a path-like name the
factory's name is the base component and the stored filename keeps the
full supplied string. -/
theorem claim_C9 (abi : List AbiItem) :
    ((from_abi_dict abi none).1.name = "<anonymous contract>" ∧
     (from_abi_dict abi none).1.filename = some "<anonymous contract>") ∧
    ∀ s, (from_abi_dict abi (some s)).1.name = basename s ∧
         (from_abi_dict abi (some s)).1.filename = some s := by
  refine ⟨⟨?_, rfl⟩, fun s => ⟨rfl, rfl⟩⟩
  show basename "<anonymous contract>" = "<anonymous contract>"
  rfl

theorem contractStackTrace_eq (reg : Registry) (c : ContractData)
    (e : Bool) (o d : List Nat) (t : Nat) (ch : List ComputationResult) :
    contractStackTrace reg c (.mk e o d t ch)
      = childTracePart reg ch ++ [traceLine c d] := by
  rw [contractStackTrace]

/-- C1: for a computation whose first four input bytes are a known
method id, the line `stack_trace` contributes for this contract (the
outermost, hence last, line of the returned trace) names the contract
and the descriptor's full signature as an unknown location; for an
unknown method id it contains the hex-encoded id and the unknown-method
-id marker.  In both cases a line is produced — reconstruction itself
does not fail. -/
theorem claim_C1 (reg : Registry) (c : ContractData)
    (comp : ComputationResult) :
    (∀ fn, lookupMid (methodIdMap c.functions) (comp.msgData.take 4) = some fn →
      (contractStackTrace reg c comp).getLast?
        = some (unknownLocationLine c fn)) ∧
    (lookupMid (methodIdMap c.functions) (comp.msgData.take 4) = none →
      (contractStackTrace reg c comp).getLast?
        = some (unknownMethodIdLine c (comp.msgData.take 4))) := by
  obtain ⟨e, o, d, t, ch⟩ := comp
  rw [contractStackTrace_eq]
  simp only [ComputationResult.msgData]
  constructor
  · intro fn hfn
    rw [List.getLast?_concat, traceLine]
    simp only [hfn]
  · intro hnone
    rw [List.getLast?_concat, traceLine]
    simp only [hnone]

/-- C1 witness: concrete known and (by a different calldata) the
resolved line is surfaced. -/
theorem claim_C1_witness :
    lookupMid (methodIdMap cW.functions) (compErrW.msgData.take 4) = some fnW ∧
    (contractStackTrace [] cW compErrW).getLast?
      = some (unknownLocationLine cW fnW) :=
  ⟨by decide, (claim_C1 [] cW compErrW).1 fnW (by decide)⟩

/-- C2: a failing outer computation with exactly one failing child
produces a two-line trace, the child's line first (innermost) and the
parent contract's line second; when the child's target address is not
registered, the child's line degrades to the generic unresolved marker
while the trace still has exactly two lines. -/
theorem claim_C2 (reg : Registry) (c : ContractData) (o d : List Nat)
    (t : Nat) (pre post : List ComputationResult) (child : ComputationResult)
    (hpre : ∀ x ∈ pre, x.isError = false)
    (hpost : ∀ x ∈ post, x.isError = false)
    (hchild : child.isError = true)
    (hleaf : ∀ x ∈ child.children, x.isError = false) :
    (∀ cc, lookupContract reg child.msgTo = some cc →
      contractStackTrace reg c (.mk true o d t (pre ++ child :: post))
        = [traceLine cc child.msgData, traceLine c d]) ∧
    (lookupContract reg child.msgTo = none →
      contractStackTrace reg c (.mk true o d t (pre ++ child :: post))
        = [unresolvedLine child, traceLine c d]) := by
  obtain ⟨ce, co, cd, ct, cch⟩ := child
  simp only [ComputationResult.isError] at hchild
  simp only [ComputationResult.children] at hleaf
  simp only [ComputationResult.msgTo, ComputationResult.msgData]
  rw [contractStackTrace_eq, childTracePart_skip reg pre _ hpre]
  have hstep : childTracePart reg (ComputationResult.mk ce co cd ct cch :: post)
      = match lookupContract reg ct with
        | some cc => contractStackTrace reg cc (.mk ce co cd ct cch)
        | none => [unresolvedLine (.mk ce co cd ct cch)] := by
    rw [childTracePart]
    simp only [ComputationResult.isError, ComputationResult.msgTo, hchild, if_true]
  constructor
  · intro cc hcc
    have hsel : (match lookupContract reg ct with
        | some cc2 => contractStackTrace reg cc2 (ComputationResult.mk ce co cd ct cch)
        | none => [unresolvedLine (ComputationResult.mk ce co cd ct cch)])
        = contractStackTrace reg cc (ComputationResult.mk ce co cd ct cch) := by
      rw [hcc]
    rw [hstep, hsel, contractStackTrace_eq, childTracePart_nil_of_ok reg cch hleaf]
    rfl
  · intro hnone
    have hsel : (match lookupContract reg ct with
        | some cc2 => contractStackTrace reg cc2 (ComputationResult.mk ce co cd ct cch)
        | none => [unresolvedLine (ComputationResult.mk ce co cd ct cch)])
        = [unresolvedLine (ComputationResult.mk ce co cd ct cch)] := by
      rw [hnone]
    rw [hstep, hsel]
    rfl

/-- C2 witness: one failing child whose target is registered yields the
two-line trace with the child's resolved line first. -/
theorem claim_C2_witness :
    (ComputationResult.mk true [] [9, 9, 9, 9] 7 []).isError = true ∧
    contractStackTrace [(7, ⟨"D", [fnBarW], ⟨7⟩, none⟩)] cW
        (.mk true [] [1, 2, 3, 4] 5
          ([] ++ ComputationResult.mk true [] [9, 9, 9, 9] 7 [] :: []))
      = [traceLine ⟨"D", [fnBarW], ⟨7⟩, none⟩ [9, 9, 9, 9],
         traceLine cW [1, 2, 3, 4]] := by
  refine ⟨rfl, ?_⟩
  exact (claim_C2 [(7, ⟨"D", [fnBarW], ⟨7⟩, none⟩)] cW [] [1, 2, 3, 4] 5
      [] [] (ComputationResult.mk true [] [9, 9, 9, 9] 7 [])
      (by intro x hx; cases hx) (by intro x hx; cases hx) rfl
      (by intro x hx; cases hx)).1
    ⟨"D", [fnBarW], ⟨7⟩, none⟩ (by decide)

/-- C4: `Factory.at` raises the missing-bytecode error and registers
nothing when `get_code` returns empty bytes, and otherwise returns a
contract bound to the normalized address and registers it in the
environment's address→contract registry. -/
theorem claim_C4 (f : ABIContractFactory) (env : Env) (rawAddr : Nat) :
    (env.codeAt (Address.norm rawAddr).val = [] →
      (factory_at f env rawAddr).1
        = .error (missingBytecode
            ⟨f.name, f.functions, Address.norm rawAddr, f.filename⟩) ∧
      (factory_at f env rawAddr).2 = env) ∧
    (env.codeAt (Address.norm rawAddr).val ≠ [] →
      ∃ c, (factory_at f env rawAddr).1 = .ok c ∧
        c.address = Address.norm rawAddr ∧
        c.name = f.name ∧ c.functions = f.functions ∧
        (factory_at f env rawAddr).2.registry
          = ((Address.norm rawAddr).val, c) :: env.registry ∧
        lookupContract ((factory_at f env rawAddr).2.registry)
          ((Address.norm rawAddr).val) = some c) := by
  constructor
  · intro h
    constructor <;> simp [factory_at, h]
  · intro h
    refine ⟨⟨f.name, f.functions, Address.norm rawAddr, f.filename⟩,
      ?_, rfl, rfl, rfl, ?_, ?_⟩
    · simp [factory_at, h]
    · simp [factory_at, h]
    · simp [factory_at, h, lookupContract]

/-- C4 witness: missing bytecode raises; present bytecode registers. -/
theorem claim_C4_witness :
    (envEmptyW.codeAt (Address.norm 5).val = [] ∧
      (factory_at facW envEmptyW 5).1
        = .error (missingBytecode
            ⟨facW.name, facW.functions, Address.norm 5, facW.filename⟩)) ∧
    (envCodeW.codeAt (Address.norm 5).val ≠ [] ∧
      ∃ c, (factory_at facW envCodeW 5).1 = .ok c ∧
        c.address = Address.norm 5 ∧
        c.name = facW.name ∧ c.functions = facW.functions ∧
        (factory_at facW envCodeW 5).2.registry
          = ((Address.norm 5).val, c) :: envCodeW.registry ∧
        lookupContract ((factory_at facW envCodeW 5).2.registry)
          ((Address.norm 5).val) = some c) :=
  ⟨⟨rfl, ((claim_C4 facW envEmptyW 5).1 rfl).1⟩,
   ⟨by decide, (claim_C4 facW envCodeW 5).2 (by decide)⟩⟩

/-- C8: re-binding `contract.deployer` at the contract's own address
(bytecode present) yields a contract with the same name, the same
descriptor list, and hence the same attribute table and method-id
table; only the filename binding may differ. -/
theorem claim_C8 (c : ContractData) (env : Env)
    (hnorm : Address.norm c.address.val = c.address)
    (hcode : env.codeAt c.address.val ≠ []) :
    ∃ c2, (factory_at (deployer c) env c.address.val).1 = .ok c2 ∧
      c2.name = c.name ∧ c2.functions = c.functions ∧
      c2.address = c.address ∧
      (∀ n, getAttr c2.functions n = getAttr c.functions n) ∧
      methodIdMap c2.functions = methodIdMap c.functions := by
  refine ⟨⟨c.name, c.functions, Address.norm c.address.val, none⟩,
    ?_, rfl, rfl, hnorm, fun n => rfl, rfl⟩
  have hcode2 : env.codeAt (Address.norm c.address.val).val ≠ [] := by
    rw [hnorm]; exact hcode
  simp [factory_at, deployer, hcode2]

/-- C8 witness at a concrete bound contract. -/
theorem claim_C8_witness :
    (Address.norm cBoundW.address.val = cBoundW.address ∧
     envCodeW.codeAt cBoundW.address.val ≠ []) ∧
    ∃ c2, (factory_at (deployer cBoundW) envCodeW cBoundW.address.val).1
        = .ok c2 ∧
      c2.name = cBoundW.name ∧ c2.functions = cBoundW.functions ∧
      c2.address = cBoundW.address ∧
      (∀ n, getAttr c2.functions n = getAttr cBoundW.functions n) ∧
      methodIdMap c2.functions = methodIdMap cBoundW.functions :=
  ⟨⟨by decide, by decide⟩, claim_C8 cBoundW envCodeW (by decide) (by decide)⟩

theorem decode_addresses_address (v : PyValue) :
    decode_addresses "address" v = some (.addr v) := rfl

theorem decode_addresses_addressArray (vs : List PyValue) :
    decode_addresses "address[]" (.list vs) = some (.list (vs.map .addr)) := rfl

theorem decode_addresses_other (tg : String) (v : PyValue)
    (h1 : tg ≠ "address") (h2 : tg ≠ "address[]") :
    decode_addresses tg v = some v := by
  cases v with
  | raw n => simp [decode_addresses, h1, h2]
  | addr u => simp [decode_addresses, h1, h2]
  | list vs => simp [decode_addresses, h1, h2]

theorem decodeAll_zip (T : List String) :
    ∀ raws : List PyValue,
      (∀ (i : Nat) (v : PyValue), T[i]? = some "address[]" → raws[i]? = some v →
        ∃ ws, v = PyValue.list ws) →
      ∃ rs : List PyValue, decodeAll (T.zip raws) = some rs ∧
        rs.length = min T.length raws.length ∧
        ∀ (i : Nat) (tg : String) (v : PyValue),
          T[i]? = some tg → raws[i]? = some v →
          ∃ w, decode_addresses tg v = some w ∧ rs[i]? = some w := by
  induction T with
  | nil =>
    intro raws _
    exact ⟨[], rfl, by simp, by intro i tg v h; simp at h⟩
  | cons t T ih =>
    intro raws hwf
    match raws with
    | [] =>
      exact ⟨[], rfl, by simp, by intro i tg v _ h; simp at h⟩
    | v :: raws =>
      have hw0 : ∃ w0, decode_addresses t v = some w0 := by
        by_cases ht : t = "address"
        · exact ⟨.addr v, by simp [decode_addresses, ht]⟩
        · by_cases ht2 : t = "address[]"
          · obtain ⟨ws, hws⟩ := hwf 0 v (by simp [ht2]) (by simp)
            exact ⟨.list (ws.map .addr), by simp [decode_addresses, ht, ht2, hws]⟩
          · exact ⟨v, by simp [decode_addresses, ht, ht2]⟩
      obtain ⟨w0, hw0⟩ := hw0
      obtain ⟨rs, hrs, hlen, hidx⟩ := ih raws (by
        intro i u h1 h2
        exact hwf (i + 1) u (by simpa using h1) (by simpa using h2))
      refine ⟨w0 :: rs, ?_, ?_, ?_⟩
      · rw [List.zip_cons_cons, decodeAll, hw0, hrs]
      · simp [hlen, Nat.succ_min_succ]
      · intro i tg u h1 h2
        match i with
        | 0 =>
          simp only [List.getElem?_cons_zero, Option.some.injEq] at h1 h2
          exact ⟨w0, h1 ▸ h2 ▸ hw0, by simp⟩
        | i + 1 =>
          simp only [List.getElem?_cons_succ] at h1 h2
          obtain ⟨w, hw, hrw⟩ := hidx i tg u h1 h2
          exact ⟨w, hw, by simpa using hrw⟩

/-- C3: on a successful computation whose output decodes against the
type tags (same length, and sequence values at `address[]` positions),
marshalling returns one value per tag in order; values tagged exactly
`"address"` come back wrapped in an `Address`, values tagged exactly
`"address[]"` have each element wrapped, and every other tag passes the
raw decoded value through unchanged (no recursion into nested types). -/
theorem claim_C3 (dec : List String → List Nat → List PyValue)
    (reg : Registry) (c : ContractData) (comp : ComputationResult)
    (T : List String)
    (hok : comp.isError = false)
    (hlen : (dec T comp.output).length = T.length)
    (hwf : ∀ (i : Nat) (v : PyValue),
      T[i]? = some "address[]" → (dec T comp.output)[i]? = some v →
      ∃ ws, v = PyValue.list ws) :
    ∃ rs : List PyValue, marshal_to_python dec reg c comp T = .ok rs ∧
      rs.length = T.length ∧
      ∀ (i : Nat) (v : PyValue), (dec T comp.output)[i]? = some v →
        (T[i]? = some "address" → rs[i]? = some (.addr v)) ∧
        (∀ ws, T[i]? = some "address[]" → v = PyValue.list ws →
          rs[i]? = some (.list (ws.map .addr))) ∧
        (∀ tg, T[i]? = some tg → tg ≠ "address" → tg ≠ "address[]" →
          rs[i]? = some v) := by
  obtain ⟨rs, hrs, hrlen, hidx⟩ := decodeAll_zip T (dec T comp.output) hwf
  refine ⟨rs, ?_, ?_, ?_⟩
  · rw [marshal_to_python]
    simp only [hok, Bool.false_eq_true, if_false, hrs]
  · rw [hrlen, hlen, Nat.min_self]
  · intro i v hv
    refine ⟨?_, ?_, ?_⟩
    · intro h1
      obtain ⟨w, hw, hrw⟩ := hidx i "address" v h1 hv
      rw [decode_addresses_address] at hw
      rw [hrw, (Option.some.inj hw).symm]
    · intro ws h1 hvws
      obtain ⟨w, hw, hrw⟩ := hidx i "address[]" v h1 hv
      rw [hvws, decode_addresses_addressArray] at hw
      rw [hrw, (Option.some.inj hw).symm]
    · intro tg h1 ht1 ht2
      obtain ⟨w, hw, hrw⟩ := hidx i tg v h1 hv
      rw [decode_addresses_other tg v ht1 ht2] at hw
      rw [hrw, (Option.some.inj hw).symm]

/-- C3 witness: address, address array and plain word tags at a
concrete decode. -/
theorem claim_C3_witness :
    compOkW.isError = false ∧
    (decW3 tagsW compOkW.output).length = tagsW.length ∧
    ∃ rs : List PyValue, marshal_to_python decW3 [] cW compOkW tagsW = .ok rs ∧
      rs.length = tagsW.length ∧
      ∀ (i : Nat) (v : PyValue), (decW3 tagsW compOkW.output)[i]? = some v →
        (tagsW[i]? = some "address" → rs[i]? = some (.addr v)) ∧
        (∀ ws, tagsW[i]? = some "address[]" → v = PyValue.list ws →
          rs[i]? = some (.list (ws.map .addr))) ∧
        (∀ tg, tagsW[i]? = some tg → tg ≠ "address" → tg ≠ "address[]" →
          rs[i]? = some v) :=
  ⟨rfl, rfl, claim_C3 decW3 [] cW compOkW tagsW rfl rfl (by
    intro i v h1 h2
    rcases i with _ | _ | _ | i
    · exact absurd (Option.some.inj h1) (by decide)
    · exact ⟨[PyValue.raw 1], Option.some.inj h2.symm⟩
    · exact absurd (Option.some.inj h1) (by decide)
    · simp [tagsW] at h1)⟩

theorem groupRuns_cons_nil (f : ABIFunction) (fs : List ABIFunction)
    (h : groupRuns fs = []) : groupRuns (f :: fs) = [[f]] := by
  rw [groupRuns, h]

theorem groupRuns_cons_cons (f : ABIFunction) (fs g : List ABIFunction)
    (gs : List (List ABIFunction)) (h : groupRuns fs = g :: gs) :
    groupRuns (f :: fs) =
      if (g.headD f).name = f.name then (f :: g) :: gs
      else [f] :: g :: gs := by
  rw [groupRuns, h]

theorem groupRuns_flatten (fs : List ABIFunction) :
    (groupRuns fs).flatten = fs := by
  induction fs with
  | nil => rfl
  | cons f fs ih =>
    cases hg : groupRuns fs with
    | nil =>
      rw [groupRuns_cons_nil f fs hg]
      rw [hg] at ih
      simp at ih
      simp [ih]
    | cons g gs =>
      rw [groupRuns_cons_cons f fs g gs hg]
      rw [hg] at ih
      by_cases hname : (g.headD f).name = f.name
      · rw [if_pos hname]
        simp only [List.flatten_cons] at ih ⊢
        simp [ih]
      · rw [if_neg hname]
        simp only [List.flatten_cons] at ih ⊢
        simp [ih]

theorem groupRuns_shape (f : ABIFunction) (fs : List ABIFunction) :
    ∃ tl gs, groupRuns (f :: fs) = (f :: tl) :: gs := by
  cases hg : groupRuns fs with
  | nil => exact ⟨[], [], groupRuns_cons_nil f fs hg⟩
  | cons g gs =>
    rw [groupRuns_cons_cons f fs g gs hg]
    by_cases hname : (g.headD f).name = f.name
    · rw [if_pos hname]; exact ⟨g, gs, rfl⟩
    · rw [if_neg hname]; exact ⟨[], g :: gs, rfl⟩

theorem groupRuns_homog (fs : List ABIFunction) :
    ∀ g ∈ groupRuns fs, g ≠ [] ∧ ∀ x ∈ g, x.name = groupName g := by
  induction fs with
  | nil => intro g hg; cases hg
  | cons f fs ih =>
    intro g hg
    cases hgr : groupRuns fs with
    | nil =>
      rw [groupRuns_cons_nil f fs hgr] at hg
      simp only [List.mem_singleton] at hg
      subst hg
      exact ⟨by simp, by simp [groupName]⟩
    | cons g0 gs =>
      rw [groupRuns_cons_cons f fs g0 gs hgr] at hg
      have hg0 := ih g0 (by rw [hgr]; exact List.mem_cons_self g0 gs)
      obtain ⟨hg0ne, hg0hom⟩ := hg0
      by_cases hname : (g0.headD f).name = f.name
      · rw [if_pos hname] at hg
        rcases List.mem_cons.mp hg with hg | hg
        · subst hg
          refine ⟨by simp, ?_⟩
          intro x hx
          rcases List.mem_cons.mp hx with hx | hx
          · subst hx; rfl
          · have hxn := hg0hom x hx
            obtain ⟨y, ytl, hy⟩ : ∃ y ytl, g0 = y :: ytl := by
              cases g0 with
              | nil => exact absurd rfl hg0ne
              | cons y ytl => exact ⟨y, ytl, rfl⟩
            rw [hy] at hxn hname
            simp only [groupName] at hxn ⊢
            simp only [List.headD_cons] at hname
            rw [hxn, hname]
        · exact ih g (by rw [hgr]; exact List.mem_cons_of_mem g0 hg)
      · rw [if_neg hname] at hg
        rcases List.mem_cons.mp hg with hg | hg
        · subst hg
          exact ⟨by simp, by simp [groupName]⟩
        · exact ih g (by rw [hgr]; exact hg)

theorem groupRuns_single_run (fs : List ABIFunction) (n : String)
    (hne : fs ≠ []) (hall : ∀ x ∈ fs, x.name = n) :
    groupRuns fs = [fs] := by
  induction fs with
  | nil => exact absurd rfl hne
  | cons f fs ih =>
    cases fs with
    | nil => rfl
    | cons f2 fs2 =>
      have ih2 := ih (by simp)
        (fun x hx => hall x (List.mem_cons_of_mem f hx))
      rw [groupRuns_cons_cons f (f2 :: fs2) (f2 :: fs2) [] ih2]
      have h1 : f2.name = n := hall f2 (by simp)
      have h2 : f.name = n := hall f (by simp)
      simp only [List.headD_cons]
      rw [if_pos (by rw [h1, h2])]

theorem groupRuns_append (ys : List ABIFunction) (hys : ys ≠ []) :
    ∀ xs : List ABIFunction,
      (∀ x y, xs.getLast? = some x → ys.head? = some y → x.name ≠ y.name) →
      groupRuns (xs ++ ys) = groupRuns xs ++ groupRuns ys := by
  intro xs
  induction xs with
  | nil => intro _; rfl
  | cons x xs ih =>
    intro hb
    cases hxs : xs with
    | nil =>
      subst hxs
      cases ys with
      | nil => exact absurd rfl hys
      | cons y ys2 =>
        obtain ⟨tl, gs, hsh⟩ := groupRuns_shape y ys2
        have hxy : x.name ≠ y.name := hb x y (by simp) rfl
        rw [List.cons_append, List.nil_append,
          groupRuns_cons_cons x (y :: ys2) (y :: tl) gs hsh]
        simp only [List.headD_cons]
        rw [if_neg (fun h => hxy h.symm), hsh]
        rfl
    | cons x2 xs2 =>
      subst hxs
      have hb2 : ∀ a y, (x2 :: xs2).getLast? = some a → ys.head? = some y →
          a.name ≠ y.name := by
        intro a y ha hy
        exact hb a y (by rw [List.getLast?_cons_cons]; exact ha) hy
      have heq := ih hb2
      simp only [List.cons_append] at heq
      obtain ⟨tlA, gsA, hA⟩ := groupRuns_shape x2 (xs2 ++ ys)
      obtain ⟨tlB, gsB, hB⟩ := groupRuns_shape x2 xs2
      rw [hA, hB] at heq
      simp only [List.cons_append, List.cons.injEq, true_and] at heq
      obtain ⟨htl, hgs⟩ := heq
      simp only [List.cons_append]
      rw [groupRuns_cons_cons x (x2 :: (xs2 ++ ys)) (x2 :: tlA) gsA hA,
        groupRuns_cons_cons x (x2 :: xs2) (x2 :: tlB) gsB hB]
      simp only [List.headD_cons]
      by_cases hname : x2.name = x.name
      · rw [if_pos hname, if_pos hname, htl, hgs]
        rfl
      · rw [if_neg hname, if_neg hname, htl, hgs]
        rfl

/-- C10: when two or more same-named descriptors are separated by
descriptors of other names, the attribute exposed under that name after
the `__init__` loop is only the last contiguous same-named group — not
an overload set of all same-named descriptors; completeness of the
exposure therefore needs the adjacency precondition. -/
theorem claim_C10 (n : String) (g1 mid g2 : List ABIFunction)
    (hg1 : g1 ≠ []) (hg2 : g2 ≠ []) (hmid : mid ≠ [])
    (hg1n : ∀ x ∈ g1, x.name = n) (hg2n : ∀ x ∈ g2, x.name = n)
    (hmidn : ∀ x ∈ mid, x.name ≠ n) :
    getAttr (g1 ++ mid ++ g2) n = some (mkEntry g2) ∧
    (g1 ++ mid ++ g2).filter (fun x => x.name == n) = g1 ++ g2 ∧
    getAttr (g1 ++ mid ++ g2) n ≠ some (FnEntry.overload (g1 ++ g2)) := by
  have hng2 : groupName g2 = n := by
    cases g2 with
    | nil => exact absurd rfl hg2
    | cons y tl => exact hg2n y (List.mem_cons_self y tl)
  have hsplit2 : groupRuns (mid ++ g2) = groupRuns mid ++ [g2] := by
    rw [groupRuns_append g2 hg2 mid ?hb2, groupRuns_single_run g2 n hg2 hg2n]
    case hb2 =>
      intro a y ha hy
      have hamem : a ∈ mid := List.mem_of_mem_getLast? ha
      have hymem : y ∈ g2 := List.mem_of_mem_head? hy
      rw [hg2n y hymem]
      exact hmidn a hamem
  have hsplit1 : groupRuns (g1 ++ (mid ++ g2))
      = [g1] ++ (groupRuns mid ++ [g2]) := by
    rw [groupRuns_append (mid ++ g2) (by simp [hmid]) g1 ?hb1, hsplit2,
      groupRuns_single_run g1 n hg1 hg1n]
    case hb1 =>
      intro a y ha hy
      have hamem : a ∈ g1 := List.mem_of_mem_getLast? ha
      have hymem : y ∈ mid ++ g2 := List.mem_of_mem_head? hy
      have hymid : y ∈ mid := by
        cases mid with
        | nil => exact absurd rfl hmid
        | cons m mid2 =>
          have : (m :: mid2 ++ g2).head? = some m := rfl
          rw [this] at hy
          exact (Option.some.inj hy) ▸ List.mem_cons_self m mid2
      rw [hg1n a hamem]
      exact fun h => hmidn y hymid h.symm
  have hattr : getAttr (g1 ++ mid ++ g2) n = some (mkEntry g2) := by
    rw [getAttr, attrTable, List.append_assoc, hsplit1]
    simp only [List.map_append, List.map_cons, List.map_nil,
      List.reverse_append, List.reverse_cons, List.reverse_nil,
      List.nil_append, List.cons_append]
    rw [List.find?_cons_of_pos _ (by simp [hng2])]
    rfl
  have hfilter : (g1 ++ mid ++ g2).filter (fun x => x.name == n)
      = g1 ++ g2 := by
    rw [List.append_assoc, List.filter_append, List.filter_append]
    rw [List.filter_eq_self.mpr (fun a ha => by simp [hg1n a ha]),
      List.filter_eq_nil_iff.mpr (fun a ha => by simp [hmidn a ha]),
      List.filter_eq_self.mpr (fun a ha => by simp [hg2n a ha])]
    rfl
  refine ⟨hattr, hfilter, ?_⟩
  rw [hattr]
  intro hcontra
  have hent : mkEntry g2 = FnEntry.overload (g1 ++ g2) :=
    Option.some.inj hcontra
  cases g2 with
  | nil => exact absurd rfl hg2
  | cons y tl =>
    cases tl with
    | nil =>
      exact FnEntry.noConfusion hent
    | cons y2 tl2 =>
      have hlist : y :: y2 :: tl2 = g1 ++ y :: y2 :: tl2 :=
        FnEntry.overload.inj hent
      have : (y :: y2 :: tl2).length = (g1 ++ y :: y2 :: tl2).length := by
        rw [← hlist]
      simp only [List.length_append] at this
      cases g1 with
      | nil => exact absurd rfl hg1
      | cons a b => simp at this

/-- C10 witness: two `foo` descriptors separated by a `bar`. -/
theorem claim_C10_witness :
    getAttr ([fnW] ++ [fnBarW] ++ [fnFoo2W]) "foo" = some (mkEntry [fnFoo2W]) ∧
    ([fnW] ++ [fnBarW] ++ [fnFoo2W]).filter (fun x => x.name == "foo")
      = [fnW] ++ [fnFoo2W] ∧
    getAttr ([fnW] ++ [fnBarW] ++ [fnFoo2W]) "foo"
      ≠ some (FnEntry.overload ([fnW] ++ [fnFoo2W])) :=
  claim_C10 "foo" [fnW] [fnBarW] [fnFoo2W] (by decide) (by decide) (by decide)
    (by decide) (by decide) (by decide)

theorem find?_reverse_nodup (l : List (String × FnEntry)) (k : String)
    (h : (l.map (·.1)).Nodup) :
    l.reverse.find? (fun p => p.1 == k) = l.find? (fun p => p.1 == k) := by
  induction l with
  | nil => rfl
  | cons a l ih =>
    simp only [List.map_cons, List.nodup_cons] at h
    obtain ⟨hka, hnd⟩ := h
    rw [List.reverse_cons, List.find?_append]
    by_cases hk : a.1 = k
    · have hnone : l.reverse.find? (fun p => p.1 == k) = none := by
        rw [List.find?_eq_none]
        intro x hx
        simp only [beq_iff_eq]
        intro hxk
        exact hka (List.mem_map.mpr ⟨x, List.mem_reverse.mp hx, by rw [hxk, hk]⟩)
      rw [hnone, List.find?_cons_of_pos _ (by simp [hk]),
        List.find?_cons_of_pos _ (by simp [hk])]
      rfl
    · have ha : List.find? (fun p => p.1 == k) [a] = none := by
        rw [List.find?_cons_of_neg _ (by simp [hk])]
        rfl
      rw [ha, ih hnd, List.find?_cons_of_neg _ (by simp [hk])]
      cases hf : List.find? (fun p => p.1 == k) l <;> rfl

theorem filter_of_groups (n : String) :
    ∀ G : List (List ABIFunction),
      (∀ g ∈ G, ∀ x ∈ g, x.name = groupName g) →
      ((G.map groupName).Nodup) →
      G.flatten.filter (fun x => x.name == n)
        = ((G.find? (fun g => groupName g == n)).getD []) := by
  intro G
  induction G with
  | nil => intro _ _; rfl
  | cons g G ih =>
    intro hhom hnd
    simp only [List.map_cons, List.nodup_cons] at hnd
    obtain ⟨hgn, hnd⟩ := hnd
    rw [List.flatten_cons, List.filter_append]
    by_cases hg : groupName g = n
    · rw [List.find?_cons_of_pos _ (by simp [hg])]
      have h1 : g.filter (fun x => x.name == n) = g :=
        List.filter_eq_self.mpr
          (fun a ha => by
            simp [hhom g (List.mem_cons_self g G) a ha, hg])
      have hfind : G.find? (fun g2 => groupName g2 == n) = none := by
        rw [List.find?_eq_none]
        intro g2 hg2
        simp only [beq_iff_eq]
        intro hg2n
        apply hgn
        rw [hg, ← hg2n]
        exact List.mem_map.mpr ⟨g2, hg2, rfl⟩
      have h2 : G.flatten.filter (fun x => x.name == n) = [] := by
        rw [ih (fun g2 hg2 => hhom g2 (List.mem_cons_of_mem g hg2)) hnd, hfind]
        rfl
      rw [h1, h2]
      simp
    · rw [List.find?_cons_of_neg _ (by simp [hg])]
      have h1 : g.filter (fun x => x.name == n) = [] :=
        List.filter_eq_nil_iff.mpr
          (fun a ha => by
            simp only [beq_iff_eq]
            rw [hhom g (List.mem_cons_self g G) a ha]
            exact hg)
      rw [h1, ih (fun g2 hg2 => hhom g2 (List.mem_cons_of_mem g hg2)) hnd]
      simp

theorem getAttr_of_nodup (fs : List ABIFunction) (n : String)
    (h : ((groupRuns fs).map groupName).Nodup) :
    getAttr fs n
      = ((groupRuns fs).find? (fun g => groupName g == n)).map mkEntry := by
  rw [getAttr]
  have hkeys : ((attrTable fs).map (·.1)) = (groupRuns fs).map groupName := by
    rw [attrTable, List.map_map]
    rfl
  rw [find?_reverse_nodup _ n (by rw [hkeys]; exact h), attrTable,
    List.find?_map, Option.map_map]
  rfl

/-- C5 (amended): provided descriptors sharing a name sit in adjacent
positions (the grouping pass of `__init__` assumes name-grouped input,
formalized as distinct run names), a name carried by exactly one
descriptor is exposed as that descriptor and a name carried by two or
more descriptors is exposed as an overload set of exactly those
descriptors; `from_abi_dict` emits the overload warning exactly once
per name carried by more than one descriptor, unconditionally. -/
theorem claim_C5 (fs : List ABIFunction) (n : String)
    (hadj : ((groupRuns fs).map groupName).Nodup) :
    (∀ f, fs.filter (fun x => x.name == n) = [f] →
      getAttr fs n = some (FnEntry.single f)) ∧
    (2 ≤ (fs.filter (fun x => x.name == n)).length →
      getAttr fs n
        = some (FnEntry.overload (fs.filter (fun x => x.name == n)))) ∧
    ((collidingNames fs).count n
      = if 2 ≤ (fs.map (·.name)).count n then 1 else 0) ∧
    (∀ (abi : List AbiItem) (nameOpt : Option String),
      (from_abi_dict abi nameOpt).2
        = (collidingNames (from_abi_dict abi nameOpt).1.functions).map
            (overloadWarning (nameOpt.getD "<anonymous contract>"))) := by
  have hfil : fs.filter (fun x => x.name == n)
      = (((groupRuns fs).find? (fun g => groupName g == n)).getD []) := by
    have := filter_of_groups n (groupRuns fs)
      (fun g hg => (groupRuns_homog fs g hg).2) hadj
    rw [groupRuns_flatten] at this
    exact this
  refine ⟨?_, ?_, ?_, fun abi nameOpt => rfl⟩
  · intro f hf
    rw [getAttr_of_nodup fs n hadj]
    cases hfind : (groupRuns fs).find? (fun g => groupName g == n) with
    | none =>
      rw [hfind] at hfil
      rw [hfil] at hf
      cases hf
    | some g =>
      rw [hfind] at hfil
      simp only [Option.getD_some] at hfil
      rw [hfil] at hf
      rw [hf]
      rfl
  · intro hlen
    rw [getAttr_of_nodup fs n hadj]
    cases hfind : (groupRuns fs).find? (fun g => groupName g == n) with
    | none =>
      rw [hfind] at hfil
      rw [hfil] at hlen
      simp at hlen
    | some g =>
      rw [hfind] at hfil
      simp only [Option.getD_some] at hfil
      rw [hfil] at hlen ⊢
      cases g with
      | nil => simp at hlen
      | cons y tl =>
        cases tl with
        | nil => simp at hlen
        | cons y2 tl2 => rfl
  · by_cases h2 : 2 ≤ (fs.map (·.name)).count n
    · rw [if_pos h2]
      have hmem : n ∈ fs.map (·.name) := List.count_pos_iff.mp (by omega)
      have hmemc : n ∈ collidingNames fs := by
        rw [collidingNames]
        exact List.mem_filter.mpr
          ⟨(firstOcc_mem _ n).mpr hmem, by simpa using h2⟩
      have hnodup : (collidingNames fs).Nodup :=
        List.Nodup.filter _ (firstOcc_nodup _)
      exact List.count_eq_one_of_mem hnodup hmemc
    · rw [if_neg h2, List.count_eq_zero]
      intro hmem
      rw [collidingNames] at hmem
      have hpred := (List.mem_filter.mp hmem).2
      simp only [decide_eq_true_eq] at hpred
      exact h2 hpred

/-- C5 witness: two adjacent `foo` overloads and one `bar`. -/
theorem claim_C5_witness :
    (((groupRuns [fnW, fnFoo2W, fnBarW]).map groupName).Nodup ∧
     2 ≤ (([fnW, fnFoo2W, fnBarW]).filter (fun x => x.name == "foo")).length) ∧
    getAttr [fnW, fnFoo2W, fnBarW] "foo"
      = some (FnEntry.overload
          (([fnW, fnFoo2W, fnBarW]).filter (fun x => x.name == "foo"))) :=
  ⟨⟨by decide, by decide⟩,
   (claim_C5 [fnW, fnFoo2W, fnBarW] "foo" (by decide)).2.1 (by decide)⟩

/-- C5 counterexample: with the two `foo` descriptors separated by
`bar`, the name `foo` carries two descriptors but is not exposed as an
overload set of those two descriptors, so the claim fails as
universally stated. -/
theorem claim_C5_counterexample :
    2 ≤ (([fnW, fnBarW, fnFoo2W]).filter (fun x => x.name == "foo")).length ∧
    getAttr [fnW, fnBarW, fnFoo2W] "foo"
      ≠ some (FnEntry.overload
          (([fnW, fnBarW, fnFoo2W]).filter (fun x => x.name == "foo"))) := by
  decide
